import Mathlib

/-!
Verification of the markdown-writer worker's core logic against its
natural-language specification.

The development shallowly embeds the worker's source:
* the character-by-character chunk splitter `splitHtml` (the identical
  algorithm appears as the standalone `splitHtml` and as
  `LlamaWriter.splitHtml`);
* the DOM cleanup done by the `preprocessHTML` variants before rule
  application, over an explicit HTML node tree (the tree stands for
  the document cheerio produces from the raw HTML; the cheerio calls
  `$('script').remove()`, `$('style').remove()`,
  `$('img[src^="data:"]').removeAttr('src')` and — in the standalone
  variant only — `$('*').removeAttr('style')` are modelled as tree
  transformations with their documented semantics);
* the prompt-message assembly of `generateMarkdown`;
* the `BaseWriter.run` orchestration, with the external collaborators
  (D1 metadata store, R2 buckets, the AI binding) modelled as
  `Except`-valued fields of an environment record, and an explicit
  effect trace recording which collaborator calls were made.

JavaScript strings are modelled as `List Char`; JavaScript numbers that
matter for control flow (the maximum chunk size) as `Int`.
-/

abbrev Str := List Char

/-! ## Chunk splitter (`splitHtml`, src/unnamed/part_002 lines 178-245,
    identical in LlamaWriter.splitHtml, src/unnamed/part_001) -/

/-- One reopening token `<name>` as built by the JS loop
`currentChunk += ` backtick `<tagStack[j]>`. -/
def openTag (t : Str) : Str := '<' :: (t ++ ['>'])

/-- One closing token `</name>` as built by the JS loop
`chunkToAdd += ` backtick `</tagStack[j]>`. -/
def closeTag (t : Str) : Str := '<' :: '/' :: (t ++ ['>'])

/-- The reopening sequence: JS iterates `j = 0 .. tagStack.length-1`
(forward, outermost first). -/
def openTags : List Str → Str
  | [] => []
  | t :: rest => openTag t ++ openTags rest

/-- Helper for `closeTags`: concatenates closing tokens over an
already-reversed stack. -/
def closeTagsRev : List Str → Str
  | [] => []
  | t :: rest => closeTag t ++ closeTagsRev rest

/-- The closing sequence: JS iterates `j = tagStack.length-1 .. 0`
(backward, innermost first). -/
def closeTags (st : List Str) : Str := closeTagsRev st.reverse

/-- Index of the last space, modelling JS `currentChunk.lastIndexOf(' ')`
(`none` models the `-1` result). -/
def lastSpaceIdx : Str → Option Nat
  | [] => none
  | c :: rest =>
      match lastSpaceIdx rest with
      | some j => some (j + 1)
      | none => if c = ' ' then some 0 else none

/-- The split point: `lastIndexOf(' ')`, with the JS fallback
`if (splitIndex === -1) splitIndex = currentChunk.length`. -/
def splitIdx (l : Str) : Nat :=
  match lastSpaceIdx l with
  | some j => j
  | none => l.length

/-- JS line terminators, which `.` in a JS regex does not match. -/
def isLineTerm (c : Char) : Bool :=
  c == '\n' || c == '\r' || c == Char.ofNat 0x2028 || c == Char.ofNat 0x2029

/-- `tagContent.match(/^<\//)`: the buffered token starts with `</`. -/
def isClosingTag (tc : Str) : Bool :=
  match tc with
  | '<' :: '/' :: _ => true
  | _ => false

/-- Search for an occurrence of `/>` preceded only by characters `.`
can match, for `isSelfClosingTag`. -/
def selfCloseScan : Str → Bool
  | '/' :: '>' :: _ => true
  | c :: rest => if isLineTerm c then false else selfCloseScan rest
  | [] => false

/-- `tagContent.match(/^<.*\/>/)`: a `/>` occurs after the leading `<`,
reachable across non-line-terminator characters. -/
def isSelfClosingTag (tc : Str) : Bool :=
  match tc with
  | '<' :: rest => selfCloseScan rest
  | _ => false

/-- `tagContent.match(/^<([^ >]+)/)?.[1]`: the maximal nonempty run of
characters other than space and `>` after the leading `<`. -/
def tagNameOf (tc : Str) : Option Str :=
  match tc with
  | [] => none
  | c :: rest =>
      if c = '<' then
        (if rest.takeWhile (fun x => !(x == ' ' || x == '>')) = [] then none
         else some (rest.takeWhile (fun x => !(x == ' ' || x == '>'))))
      else none

/-- Stack update when a buffered tag token completes (`char === '>'`,
src/unnamed/part_002 lines 201-207): a closing tag pops (JS
`Array.pop`, a no-op on an empty array), a self-closing tag is ignored,
any other tag with a parsable name pushes. -/
def classify (tc : Str) (stack : List Str) : List Str :=
  if isClosingTag tc then stack.dropLast
  else if isSelfClosingTag tc then stack
  else
    match tagNameOf tc with
    | some nm => stack ++ [nm]
    | none => stack

/-- The character loop of `splitHtml` (src/unnamed/part_002 lines
188-237).  State: accumulated `chunks`, `currentChunk`, `tagStack`,
`inTag`, `tagContent`.  On `<` the token buffer restarts (the JS branch
runs even when already inside a token); inside a token characters are
buffered until `>`; outside, each character is appended and then the
size threshold is checked.  At the threshold the chunk body up to the
split point plus closing tags is emitted, and the new accumulator is
rebuilt exactly as the JS does: `currentChunk = ''`, the reopening
tags are appended, and then `currentChunk += currentChunk.slice(splitIndex)`
slices the accumulator as already reassigned.  At end of input a
non-empty accumulator is pushed; a pending unterminated token is
dropped. -/
def splitGo (m : Int) : Str → List Str → Str → List Str → Bool → Str → List Str
  | [], chunks, cur, _stack, _inTag, _tc =>
      if cur = [] then chunks else chunks ++ [cur]
  | c :: rest, chunks, cur, stack, inTag, tc =>
      if c = '<' then
        splitGo m rest chunks cur stack true ['<']
      else if inTag then
        (if c = '>' then
          splitGo m rest chunks (cur ++ (tc ++ [c])) (classify (tc ++ [c]) stack) false []
        else
          splitGo m rest chunks cur stack true (tc ++ [c]))
      else
        (if m ≤ ((cur ++ [c]).length : Int) ∧ inTag = false then
           splitGo m rest
             (chunks ++ [(cur ++ [c]).take (splitIdx (cur ++ [c])) ++ closeTags stack])
             (openTags stack ++ (openTags stack).drop (splitIdx (cur ++ [c])))
             stack false []
         else
           splitGo m rest chunks (cur ++ [c]) stack false [])

/-- `splitHtml(htmlInput, maxChunkSize)`, src/unnamed/part_002 lines
178-245. -/
def splitHtml (input : Str) (m : Int) : List Str :=
  splitGo m input [] [] [] false []

/-- Instrumented variant of the loop: each emitted chunk is paired with
the tag stack at the moment it was pushed (a ghost annotation; the
first components follow the source exactly, see `splitGo_eq_map`). -/
def splitGoI (m : Int) :
    Str → List (Str × List Str) → Str → List Str → Bool → Str → List (Str × List Str)
  | [], chunks, cur, stack, _inTag, _tc =>
      if cur = [] then chunks else chunks ++ [(cur, stack)]
  | c :: rest, chunks, cur, stack, inTag, tc =>
      if c = '<' then
        splitGoI m rest chunks cur stack true ['<']
      else if inTag then
        (if c = '>' then
          splitGoI m rest chunks (cur ++ (tc ++ [c])) (classify (tc ++ [c]) stack) false []
        else
          splitGoI m rest chunks cur stack true (tc ++ [c]))
      else
        (if m ≤ ((cur ++ [c]).length : Int) ∧ inTag = false then
           splitGoI m rest
             (chunks ++ [((cur ++ [c]).take (splitIdx (cur ++ [c])) ++ closeTags stack, stack)])
             (openTags stack ++ (openTags stack).drop (splitIdx (cur ++ [c])))
             stack false []
         else
           splitGoI m rest chunks (cur ++ [c]) stack false [])

/-- `splitHtml` with per-chunk boundary stacks recorded. -/
def splitHtmlI (input : Str) (m : Int) : List (Str × List Str) :=
  splitGoI m input [] [] [] false []

/-- Re-parse check used by the tag-token testable property: scanning a
string with the splitter's own `<`/`>` discipline, does the scan end
inside an unterminated `<...` token? -/
def endsInTagAux : Str → Bool → Bool
  | [], inTag => inTag
  | c :: rest, inTag =>
      if c = '<' then endsInTagAux rest true
      else if c = '>' then endsInTagAux rest false
      else endsInTagAux rest inTag

/-- A chunk re-parses into a trailing unterminated tag token. -/
def hasUnterminatedTag (s : Str) : Bool := endsInTagAux s false

/-! ## Boundary tag-balance development for the splitter -/

/-- `p` is a prefix of `l`. -/
def hasPrefixP (p l : Str) : Prop := ∃ r, l = p ++ r

/-- `s` is a suffix of `l`. -/
def hasSuffixP (s l : Str) : Prop := ∃ b, l = b ++ s

/-- Adjacent-pair boundary property over chunks annotated with their
boundary stacks: each chunk that has a successor ends with the closing
tags of its recorded stack (innermost first) and its successor starts
with the reopening tags of that same stack (outermost first). -/
def adjacentOk : List (Str × List Str) → Prop
  | (c1, st1) :: (c2, st2) :: rest =>
      (hasSuffixP (closeTags st1) c1 ∧ hasPrefixP (openTags st1) c2) ∧
        adjacentOk ((c2, st2) :: rest)
  | _ => True

/-- Every stack entry is free of spaces (tag names are matched by
`[^ >]+`, so they never contain a space). -/
def spaceFreeStack (st : List Str) : Prop := ∀ nm ∈ st, ' ' ∉ nm

theorem lastSpaceIdx_cons (c : Char) (l : Str) :
    lastSpaceIdx (c :: l) =
      match lastSpaceIdx l with
      | some j => some (j + 1)
      | none => if c = ' ' then some 0 else none := rfl

theorem splitIdx_cons (c : Char) (l : Str) (hc : c ≠ ' ') :
    splitIdx (c :: l) = splitIdx l + 1 := by
  cases h : lastSpaceIdx l with
  | some j => simp [splitIdx, lastSpaceIdx_cons, h]
  | none => simp [splitIdx, lastSpaceIdx_cons, h, hc]

theorem splitIdx_append (p q : Str) (hp : ' ' ∉ p) :
    splitIdx (p ++ q) = p.length + splitIdx q := by
  induction p with
  | nil => simp
  | cons c rest ih =>
      have hc : c ≠ ' ' := by
        intro h; exact hp (h ▸ List.mem_cons_self c rest)
      have hrest : ' ' ∉ rest := fun h => hp (List.mem_cons_of_mem c h)
      rw [List.cons_append, splitIdx_cons c (rest ++ q) hc, ih hrest,
        List.length_cons]
      omega

theorem lastSpaceIdx_lt_length (l : Str) (j : Nat) (h : lastSpaceIdx l = some j) :
    j < l.length := by
  induction l generalizing j with
  | nil => simp [lastSpaceIdx] at h
  | cons c rest ih =>
      unfold lastSpaceIdx at h
      cases hr : lastSpaceIdx rest with
      | some k =>
          rw [hr] at h
          simp at h
          have := ih k hr
          simp [List.length_cons]
          omega
      | none =>
          rw [hr] at h
          by_cases hc : c = ' '
          · simp [hc] at h
            simp [List.length_cons]
            omega
          · simp [hc] at h

theorem splitIdx_le_length (l : Str) : splitIdx l ≤ l.length := by
  unfold splitIdx
  cases h : lastSpaceIdx l with
  | some j => exact Nat.le_of_lt (lastSpaceIdx_lt_length l j h)
  | none => exact Nat.le_refl _

theorem take_hasPrefixP (p q : Str) (n : Nat) (h : p.length ≤ n) :
    (p ++ q).take n = p ++ q.take (n - p.length) := by
  rw [List.take_append_eq_append_take, List.take_of_length_le h]

theorem spaceFree_openTags (st : List Str) (h : spaceFreeStack st) :
    ' ' ∉ openTags st := by
  induction st with
  | nil => simp [openTags]
  | cons t rest ih =>
      have ht : ' ' ∉ t := h t (List.mem_cons_self t rest)
      have hrest : spaceFreeStack rest := fun nm hm => h nm (List.mem_cons_of_mem t hm)
      simp only [openTags, openTag]
      intro hmem
      rcases List.mem_append.mp hmem with h1 | h2
      · rcases List.mem_cons.mp h1 with h3 | h4
        · exact absurd h3 (by decide)
        · rcases List.mem_append.mp h4 with h5 | h6
          · exact ht h5
          · simp at h6
      · exact ih hrest h2

theorem mem_of_getLast?_eq (l : List α) (x : α) (h : l.getLast? = some x) : x ∈ l := by
  induction l with
  | nil => simp at h
  | cons a rest ih =>
      cases rest with
      | nil => simp at h; simp [h]
      | cons b r2 =>
          rw [List.getLast?_cons_cons] at h
          exact List.mem_cons_of_mem a (ih h)

theorem adjacentOk_snoc (l : List (Str × List Str)) (x : Str × List Str)
    (h1 : adjacentOk l)
    (h2 : ∀ c st, l.getLast? = some (c, st) →
      hasSuffixP (closeTags st) c ∧ hasPrefixP (openTags st) x.1) :
    adjacentOk (l ++ [x]) := by
  induction l with
  | nil => simp [adjacentOk]
  | cons a rest ih =>
      cases rest with
      | nil =>
          obtain ⟨c, st⟩ := a
          obtain ⟨x1, x2⟩ := x
          exact ⟨h2 c st rfl, trivial⟩
      | cons b r2 =>
          obtain ⟨c, st⟩ := a
          obtain ⟨b1, b2⟩ := b
          refine ⟨h1.1, ih h1.2 ?_⟩
          intro c0 st0 hl
          exact h2 c0 st0 (by rw [List.getLast?_cons_cons]; exact hl)

theorem tagNameOf_spaceFree (tc nm : Str) (h : tagNameOf tc = some nm) :
    ' ' ∉ nm := by
  cases tc with
  | nil => simp [tagNameOf] at h
  | cons c0 rest =>
      by_cases hc : c0 = '<'
      · subst hc
        simp only [tagNameOf, if_pos] at h
        split at h
        · exact absurd h (by simp)
        · have hnm : rest.takeWhile (fun x => !(x == ' ' || x == '>')) = nm :=
            Option.some.inj h
          intro hsp
          rw [← hnm] at hsp
          have := List.mem_takeWhile_imp hsp
          simp at this
      · simp [tagNameOf, hc] at h

theorem classify_spaceFree (tc : Str) (stack : List Str) (h : spaceFreeStack stack) :
    spaceFreeStack (classify tc stack) := by
  unfold classify
  split
  · exact fun nm hm => h nm (List.dropLast_subset stack hm)
  · split
    · exact h
    · split
      · next nm heq =>
          intro nm0 hm0
          rcases List.mem_append.mp hm0 with h1 | h2
          · exact h nm0 h1
          · have hnm : nm0 = nm := by simpa using h2
            rw [hnm]
            exact tagNameOf_spaceFree tc nm heq
      · exact h

/-- Loop invariant for the instrumented splitter: starting from a chunk
list satisfying the boundary discipline, whose every element ends with
the closing tags of its recorded stack, whose last recorded stack (if
any) is space-free with its reopening tags a prefix of the current
accumulator, and with a space-free live stack, the loop's final output
satisfies the boundary discipline. -/
theorem splitGoI_ok (input : Str) :
    ∀ (m : Int) (chunks : List (Str × List Str)) (cur : Str)
      (stack : List Str) (inTag : Bool) (tc : Str),
    adjacentOk chunks →
    (∀ p ∈ chunks, hasSuffixP (closeTags p.2) p.1) →
    (∀ c st, chunks.getLast? = some (c, st) →
      hasPrefixP (openTags st) cur ∧ spaceFreeStack st) →
    spaceFreeStack stack →
    adjacentOk (splitGoI m input chunks cur stack inTag tc) := by
  induction input with
  | nil =>
      intro m chunks cur stack inTag tc hadj hcl hlast hsf
      simp only [splitGoI]
      split
      · exact hadj
      · apply adjacentOk_snoc _ _ hadj
        intro c st hl
        exact ⟨hcl (c, st) (mem_of_getLast?_eq _ _ hl), (hlast c st hl).1⟩
  | cons c rest ih =>
      intro m chunks cur stack inTag tc hadj hcl hlast hsf
      simp only [splitGoI]
      by_cases hc : c = '<'
      · rw [if_pos hc]
        exact ih m chunks cur stack true ['<'] hadj hcl hlast hsf
      · rw [if_neg hc]
        cases inTag with
        | true =>
            rw [if_pos rfl]
            by_cases hgt : c = '>'
            · rw [if_pos hgt]
              apply ih m chunks (cur ++ (tc ++ [c])) (classify (tc ++ [c]) stack)
                false [] hadj hcl _ (classify_spaceFree _ _ hsf)
              intro c0 st0 hl
              obtain ⟨⟨r, hr⟩, hsf0⟩ := hlast c0 st0 hl
              exact ⟨⟨r ++ (tc ++ [c]), by rw [hr, List.append_assoc]⟩, hsf0⟩
            · rw [if_neg hgt]
              exact ih m chunks cur stack true (tc ++ [c]) hadj hcl hlast hsf
        | false =>
            rw [if_neg Bool.false_ne_true]
            by_cases hm : m ≤ ((cur ++ [c]).length : Int)
            · rw [if_pos ⟨hm, rfl⟩]
              apply ih
              · apply adjacentOk_snoc _ _ hadj
                intro c0 st0 hl
                refine ⟨hcl (c0, st0) (mem_of_getLast?_eq _ _ hl), ?_⟩
                obtain ⟨⟨r, hr⟩, hsf0⟩ := hlast c0 st0 hl
                have hcat : cur ++ [c] = openTags st0 ++ (r ++ [c]) := by
                  rw [hr, List.append_assoc]
                have htake : (cur ++ [c]).take (splitIdx (cur ++ [c])) =
                    openTags st0 ++
                      (r ++ [c]).take (splitIdx (cur ++ [c]) - (openTags st0).length) := by
                  rw [hcat]
                  refine take_hasPrefixP _ _ _ ?_
                  rw [splitIdx_append _ _ (spaceFree_openTags st0 hsf0)]
                  omega
                exact ⟨(r ++ [c]).take (splitIdx (cur ++ [c]) - (openTags st0).length) ++
                    closeTags stack, by rw [htake, List.append_assoc]⟩
              · intro p hp
                rcases List.mem_append.mp hp with h1 | h2
                · exact hcl p h1
                · have hp2 : p =
                      ((cur ++ [c]).take (splitIdx (cur ++ [c])) ++ closeTags stack,
                        stack) := by simpa using h2
                  rw [hp2]
                  exact ⟨(cur ++ [c]).take (splitIdx (cur ++ [c])), rfl⟩
              · intro c0 st0 hl
                rw [List.getLast?_concat] at hl
                obtain ⟨he1, he2⟩ := Prod.mk.injEq .. ▸ Option.some.inj hl
                rw [← he2]
                exact ⟨⟨(openTags stack).drop (splitIdx (cur ++ [c])), rfl⟩, hsf⟩
              · exact hsf
            · rw [if_neg (fun hand => hm hand.1)]
              apply ih m chunks (cur ++ [c]) stack false [] hadj hcl _ hsf
              intro c0 st0 hl
              obtain ⟨⟨r, hr⟩, hsf0⟩ := hlast c0 st0 hl
              exact ⟨⟨r ++ [c], by rw [hr, List.append_assoc]⟩, hsf0⟩

/-- The plain splitter loop is the first projection of the instrumented
one: the boundary-stack annotations are ghost state. -/
theorem splitGo_eq_map (input : Str) :
    ∀ (m : Int) (chunks : List (Str × List Str)) (cur : Str) (stack : List Str)
      (inTag : Bool) (tc : Str),
    splitGo m input (chunks.map Prod.fst) cur stack inTag tc =
      (splitGoI m input chunks cur stack inTag tc).map Prod.fst := by
  induction input with
  | nil =>
      intro m chunks cur stack inTag tc
      simp only [splitGo, splitGoI]
      split <;> simp
  | cons c rest ih =>
      intro m chunks cur stack inTag tc
      simp only [splitGo, splitGoI]
      by_cases hc : c = '<'
      · rw [if_pos hc, if_pos hc]
        exact ih m chunks cur stack true ['<']
      · rw [if_neg hc, if_neg hc]
        cases inTag with
        | true =>
            rw [if_pos rfl, if_pos rfl]
            by_cases hgt : c = '>'
            · rw [if_pos hgt, if_pos hgt]
              exact ih m chunks (cur ++ (tc ++ [c])) (classify (tc ++ [c]) stack)
                false []
            · rw [if_neg hgt, if_neg hgt]
              exact ih m chunks cur stack true (tc ++ [c])
        | false =>
            rw [if_neg Bool.false_ne_true, if_neg Bool.false_ne_true]
            by_cases hm : m ≤ ((cur ++ [c]).length : Int)
            · rw [if_pos ⟨hm, rfl⟩, if_pos ⟨hm, rfl⟩]
              have harg : chunks.map Prod.fst ++
                    [(cur ++ [c]).take (splitIdx (cur ++ [c])) ++ closeTags stack] =
                  (chunks ++
                    [((cur ++ [c]).take (splitIdx (cur ++ [c])) ++ closeTags stack,
                      stack)]).map Prod.fst := by
                simp
              rw [harg]
              exact ih m _ _ stack false []
            · rw [if_neg (fun hand => hm hand.1), if_neg (fun hand => hm hand.1)]
              exact ih m chunks (cur ++ [c]) stack false []

/-- Claim C3: for every chunk boundary produced by `splitHtml` (every
chunk that has a successor), the element names left open at that
boundary — the algorithm's tag stack at the moment the chunk was
emitted, recorded by the instrumented run `splitHtmlI`, whose first
projection is exactly `splitHtml` — appear as closing tags at the end
of the preceding chunk in reverse (innermost-first) order
(`closeTags`), and as opening tags at the start of the following chunk
in forward (outermost-first) order (`openTags`). -/
theorem claim_C3_boundary_tag_balance (input : Str) (m : Int) :
    splitHtml input m = (splitHtmlI input m).map Prod.fst ∧
    adjacentOk (splitHtmlI input m) := by
  constructor
  · have h := splitGo_eq_map input m [] [] [] false []
    simpa [splitHtml, splitHtmlI] using h
  · exact splitGoI_ok input m [] [] [] false [] trivial
      (by intro p hp; simp at hp) (by intro c st hl; simp at hl)
      (by intro nm hnm; simp at hnm)

/-- Claim C1 (code bug): the remainder after the chosen split point is
dropped rather than carried into the next accumulator, because the
source slices the accumulator after reassigning it
(`currentChunk += currentChunk.slice(splitIndex)`).  On input
`"ab cd"` with maximum size 4 the split point is the space at index 2;
the remainder `"c"` after it is lost: the chunks are `["ab", "d"]` and
no chunk contains the character `c`, so concatenation does not
reconstruct the input. -/
theorem claim_C1_remainder_dropped :
    splitHtml "ab cd".data 4 = [['a', 'b'], ['d']] ∧
    'c' ∈ "ab cd".data ∧
    (splitHtml "ab cd".data 4).all (fun chunk => !(chunk.contains 'c')) = true := by
  decide

/-- Claim C2 (code bug): the backward search
`currentChunk.lastIndexOf(' ')` scans the whole accumulator, including
previously appended tag tokens, so the split point can land inside a
tag token.  On input `"<b c/>x"` with maximum size 1 the last space is
inside the self-closing token `<b c/>` (which pushed nothing on the
stack, so no closing tags are appended) and the emitted chunk is
`"<b"`, which re-parses into an unterminated `<...` token. -/
theorem claim_C2_split_inside_tag_token :
    splitHtml "<b c/>x".data 1 = [['<', 'b']] ∧
    hasUnterminatedTag ['<', 'b'] = true := by
  decide

/-- Counterexample to claim C4: `splitHtml` contains no validation of
the maximum size.  With maximum size 0 it runs the character-scanning
loop, whose threshold check fires after every non-tag character: the
loop output `["a", "b"]` for input `"ab"` is the scanning algorithm's
per-character split, not a rejection. -/
theorem claim_C4_counterexample :
    splitHtml "ab".data 0 = [['a'], ['b']] := by decide

/-- Helper for the amended claim C4: with a non-positive maximum size
and an input free of `<` and spaces, the loop emits one chunk per
character. -/
theorem splitGo_nonpos (m : Int) (hm : m ≤ 0) (s : Str) :
    ∀ chunks, (∀ c ∈ s, c ≠ '<' ∧ c ≠ ' ') →
    splitGo m s chunks [] [] false [] = chunks ++ s.map (fun c => [c]) := by
  induction s with
  | nil => intro chunks _; simp [splitGo]
  | cons c rest ih =>
      intro chunks hs
      have hc := hs c (List.mem_cons_self c rest)
      simp only [splitGo]
      rw [if_neg hc.1, if_neg Bool.false_ne_true,
        if_pos (show m ≤ ((([] : Str) ++ [c]).length : Int) ∧ True from
          ⟨by simp; omega, trivial⟩)]
      have hsi : splitIdx (([] : Str) ++ [c]) = 1 := by
        simp [splitIdx, lastSpaceIdx, hc.2]
      rw [hsi]
      have hrest : ∀ x ∈ rest, x ≠ '<' ∧ x ≠ ' ' :=
        fun x hx => hs x (List.mem_cons_of_mem c hx)
      have hch : List.take 1 (([] : Str) ++ [c]) ++ closeTags [] = [c] := by
        simp [closeTags, closeTagsRev]
      have hcur : openTags ([] : List Str) ++
          List.drop 1 (openTags ([] : List Str)) = ([] : Str) := by
        simp [openTags]
      rw [hch, hcur, ih (chunks ++ [[c]]) hrest]
      simp

/-- Claim C4 amended: the splitter performs no validation of the
maximum size.  For every maximum size ≤ 0 it still enters the
character-scanning loop, and the threshold then fires after every
non-tag character: on any input without `<` or spaces it returns one
chunk per input character. -/
theorem claim_C4_amended (s : Str) (m : Int) (hm : m ≤ 0)
    (hs : ∀ c ∈ s, c ≠ '<' ∧ c ≠ ' ') :
    splitHtml s m = s.map (fun c => [c]) := by
  have h := splitGo_nonpos m hm s [] hs
  simpa [splitHtml] using h

/-- Witness for the amended claim C4 at a concrete input. -/
theorem claim_C4_amended_witness :
    splitHtml "ab".data (-3) = "ab".data.map (fun c => [c]) :=
  claim_C4_amended "ab".data (-3) (by decide) (by decide)

/-! ## DOM extractor cleanup (`preprocessHTML`, src/unnamed/part_002
    lines 118-170; LlamaWriter.preprocessHTML, src/unnamed/part_001
    lines 245-294, is the same except that its cleanup omits the
    style-attribute strip, as does GeminiWriter.preprocessHTML,
    src/unnamed/part_000 lines 112-126)

The document tree produced by `cheerio.load` is modelled explicitly:
element nodes carry a tag name, an attribute list and ordered
children.  The cheerio removal/attribute calls the sources make before
rule application are modelled as tree transformations with their
documented semantics. -/

/-- A parsed HTML node. -/
inductive Node where
  | elem (tag : Str) (attrs : List (Str × Str)) (children : List Node)
  | text (s : Str)

/-- `$(tag).remove()`: delete every element with the given tag name,
together with its subtree, everywhere in the document. -/
def removeElems (t : Str) : List Node → List Node
  | [] => []
  | Node.text s :: rest => Node.text s :: removeElems t rest
  | Node.elem tag attrs ch :: rest =>
      if tag = t then removeElems t rest
      else Node.elem tag attrs (removeElems t ch) :: removeElems t rest

/-- `$('*').removeAttr(a)`: delete the attribute from every element. -/
def removeAttrAll (a : Str) : List Node → List Node
  | [] => []
  | Node.text s :: rest => Node.text s :: removeAttrAll a rest
  | Node.elem tag attrs ch :: rest =>
      Node.elem tag (attrs.filter (fun p => !(p.1 == a)))
        (removeAttrAll a ch) :: removeAttrAll a rest

/-- The attribute-selector test of `img[src^="data:"]`. -/
def startsWithData (s : Str) : Bool := "data:".data.isPrefixOf s

/-- `$('img[src^="data:"]').removeAttr('src')`: on every `img` element
whose `src` value begins with `data:`, delete the `src` attribute. -/
def clearDataImgSrc : List Node → List Node
  | [] => []
  | Node.text s :: rest => Node.text s :: clearDataImgSrc rest
  | Node.elem tag attrs ch :: rest =>
      Node.elem tag
        (if tag == "img".data &&
            attrs.any (fun p => p.1 == "src".data && startsWithData p.2) then
          attrs.filter (fun p => !(p.1 == "src".data))
        else attrs)
        (clearDataImgSrc ch) :: clearDataImgSrc rest

/-- The cleanup the standalone `preprocessHTML` performs before
looking at the rules (src/unnamed/part_002 lines 124-128), in source
order: remove `script` elements, remove `style` elements, clear
inline-data `img` sources, strip `style` attributes. -/
def cleanupDoc (doc : List Node) : List Node :=
  removeAttrAll "style".data
    (clearDataImgSrc (removeElems "style".data (removeElems "script".data doc)))

/-- The cleanup `LlamaWriter.preprocessHTML` performs before looking
at the rules (src/unnamed/part_001 lines 252-254; the same three calls
appear in `GeminiWriter.preprocessHTML`, src/unnamed/part_000 lines
117-119): remove `script` elements, remove `style` elements, clear
inline-data `img` sources.  Unlike the standalone variant, there is no
`$('*').removeAttr('style')` call. -/
def cleanupDocLlama (doc : List Node) : List Node :=
  clearDataImgSrc (removeElems "style".data (removeElems "script".data doc))

/-- No element with the given tag name occurs anywhere in the trees. -/
def noElemB (t : Str) : List Node → Bool
  | [] => true
  | Node.text _ :: rest => noElemB t rest
  | Node.elem tag _ ch :: rest => !(tag == t) && noElemB t ch && noElemB t rest

/-- No element anywhere carries the given attribute. -/
def noAttrB (a : Str) : List Node → Bool
  | [] => true
  | Node.text _ :: rest => noAttrB a rest
  | Node.elem _ attrs ch :: rest =>
      attrs.all (fun p => !(p.1 == a)) && noAttrB a ch && noAttrB a rest

/-- No `img` element anywhere has a `src` attribute whose value begins
with `data:`. -/
def imgSrcCleanB : List Node → Bool
  | [] => true
  | Node.text _ :: rest => imgSrcCleanB rest
  | Node.elem tag attrs ch :: rest =>
      (!(tag == "img".data) ||
        attrs.all (fun p => !(p.1 == "src".data && startsWithData p.2))) &&
        imgSrcCleanB ch && imgSrcCleanB rest

theorem noElemB_removeElems (t : Str) (ns : List Node) :
    noElemB t (removeElems t ns) = true := by
  induction ns using removeElems.induct t
  all_goals simp_all [removeElems, noElemB]

theorem noElemB_removeElems_other (t u : Str) (ns : List Node)
    (h : noElemB t ns = true) : noElemB t (removeElems u ns) = true := by
  induction ns using removeElems.induct u
  all_goals simp_all [removeElems, noElemB]

theorem noElemB_clearDataImgSrc (t : Str) (ns : List Node) :
    noElemB t (clearDataImgSrc ns) = noElemB t ns := by
  induction ns using clearDataImgSrc.induct
  all_goals simp_all [clearDataImgSrc, noElemB]

theorem noElemB_removeAttrAll (t a : Str) (ns : List Node) :
    noElemB t (removeAttrAll a ns) = noElemB t ns := by
  induction ns using removeAttrAll.induct a
  all_goals simp_all [removeAttrAll, noElemB]

theorem noAttrB_removeAttrAll (a : Str) (ns : List Node) :
    noAttrB a (removeAttrAll a ns) = true := by
  induction ns using removeAttrAll.induct a
  all_goals simp_all [removeAttrAll, noAttrB, List.all_eq_true, List.mem_filter]


theorem imgSrcCleanB_clearDataImgSrc (ns : List Node) :
    imgSrcCleanB (clearDataImgSrc ns) = true := by
  induction ns using clearDataImgSrc.induct with
  | case1 => simp [clearDataImgSrc, imgSrcCleanB]
  | case2 s rest ih => simpa [clearDataImgSrc, imgSrcCleanB] using ih
  | case3 tag attrs ch rest ih1 ih2 =>
      simp only [clearDataImgSrc, imgSrcCleanB, Bool.and_eq_true]
      refine ⟨⟨?_, ih1⟩, ih2⟩
      by_cases htag : (tag == "img".data) = true
      · by_cases hany :
            (attrs.any fun p => p.1 == "src".data && startsWithData p.2) = true
        · rw [if_pos ⟨htag, hany⟩]
          have hb : ((attrs.filter (fun p => !(p.1 == "src".data))).all
              (fun p => !(p.1 == "src".data && startsWithData p.2))) = true := by
            rw [List.all_eq_true]
            intro p hp
            have hps := List.of_mem_filter hp
            simp only [Bool.not_eq_true'] at hps
            simp [hps]
          simp only [hb, Bool.or_true]
        · rw [if_neg (fun hand => hany hand.2)]
          have hall : (attrs.all
              fun p => !(p.1 == "src".data && startsWithData p.2)) = true := by
            rw [List.all_eq_true]
            intro p hp
            rw [Bool.not_eq_true']
            cases hpx : (p.1 == "src".data && startsWithData p.2) with
            | false => rfl
            | true => exact absurd (List.any_eq_true.mpr ⟨p, hp, hpx⟩) hany
          simp only [hall, Bool.or_true]
      · rw [if_neg (fun hand => htag hand.1)]
        simp only [Bool.not_eq_true] at htag
        simp [htag]

theorem imgSrcCleanB_removeAttrAll (a : Str) (ns : List Node)
    (h : imgSrcCleanB ns = true) : imgSrcCleanB (removeAttrAll a ns) = true := by
  induction ns using removeAttrAll.induct a with
  | case1 => simp [removeAttrAll, imgSrcCleanB]
  | case2 s rest ih =>
      simp only [imgSrcCleanB, removeAttrAll] at h ⊢
      exact ih h
  | case3 tag attrs ch rest ih1 ih2 =>
      simp only [imgSrcCleanB, removeAttrAll, Bool.and_eq_true] at h ⊢
      refine ⟨⟨?_, ih1 h.1.2⟩, ih2 h.2⟩
      rcases Bool.or_eq_true_iff.mp h.1.1 with h1 | h2
      · rw [Bool.or_eq_true_iff]
        exact Or.inl h1
      · rw [Bool.or_eq_true_iff]
        right
        rw [List.all_eq_true] at h2 ⊢
        intro p hp
        exact h2 p (List.mem_of_mem_filter hp)

/-- Counterexample to claim C5: the claim asserts that every cited
extractor's cleanup removes every `style` attribute, but the cleanup
of `LlamaWriter.preprocessHTML` (src/unnamed/part_001 lines 252-254) —
a rule-taking extractor squarely inside the claim's quantification —
has no `$('*').removeAttr('style')` call: on a document consisting of
one `div` element carrying a `style` attribute, the attribute survives
the cleanup. -/
theorem claim_C5_counterexample :
    noAttrB "style".data (cleanupDocLlama
      [Node.elem "div".data [("style".data, "x".data)] []]) = false := by
  simp [cleanupDocLlama, removeElems, clearDataImgSrc, noAttrB, startsWithData]

/-- Claim C5 amended: for every document, every variant's cleanup
before rule application removes all `script` elements, all `style`
elements, and clears the `src` of `img` elements whose value begins
with `data:`; the strip of every `style` attribute is performed only
by the standalone `preprocessHTML` variant (`cleanupDoc`,
src/unnamed/part_002 line 128), not by `LlamaWriter.preprocessHTML` or
`GeminiWriter.preprocessHTML` (`cleanupDocLlama`). -/
theorem claim_C5_amended (doc : List Node) :
    noElemB "script".data (cleanupDoc doc) = true ∧
    noElemB "style".data (cleanupDoc doc) = true ∧
    noAttrB "style".data (cleanupDoc doc) = true ∧
    imgSrcCleanB (cleanupDoc doc) = true ∧
    noElemB "script".data (cleanupDocLlama doc) = true ∧
    noElemB "style".data (cleanupDocLlama doc) = true ∧
    imgSrcCleanB (cleanupDocLlama doc) = true := by
  unfold cleanupDoc cleanupDocLlama
  refine ⟨?_, ?_, ?_, ?_, ?_, ?_, ?_⟩
  · rw [noElemB_removeAttrAll, noElemB_clearDataImgSrc]
    exact noElemB_removeElems_other _ _ _ (noElemB_removeElems _ _)
  · rw [noElemB_removeAttrAll, noElemB_clearDataImgSrc]
    exact noElemB_removeElems _ _
  · exact noAttrB_removeAttrAll _ _
  · exact imgSrcCleanB_removeAttrAll _ _ (imgSrcCleanB_clearDataImgSrc _)
  · rw [noElemB_clearDataImgSrc]
    exact noElemB_removeElems_other _ _ _ (noElemB_removeElems _ _)
  · rw [noElemB_clearDataImgSrc]
    exact noElemB_removeElems _ _
  · exact imgSrcCleanB_clearDataImgSrc _

/-- Concatenated text content of a node list (depth-first), modelling
cheerio's `.text()` serialization. -/
def textOfNodes : List Node → Str
  | [] => []
  | Node.text s :: rest => s ++ textOfNodes rest
  | Node.elem _ _ ch :: rest => textOfNodes ch ++ textOfNodes rest

/-- Text content of one node. -/
def nodeText : Node → Str
  | Node.text s => s
  | Node.elem _ _ ch => textOfNodes ch

/-- All elements with the given tag name, in document order, modelling
the tag selectors `$('title')` and `$('body')`. -/
def findElems (t : Str) : List Node → List Node
  | [] => []
  | Node.text _ :: rest => findElems t rest
  | Node.elem tag attrs ch :: rest =>
      (if tag = t then [Node.elem tag attrs ch] else []) ++
        findElems t ch ++ findElems t rest

/-- `$(sel).text()`: concatenated text of every selected element. -/
def selTexts : List Node → Str
  | [] => []
  | n :: rest => nodeText n ++ selTexts rest

/-- `$('title').text()`. -/
def titleOf (doc : List Node) : Str := selTexts (findElems "title".data doc)

/-- `$('body').text()`. -/
def bodyTextOf (doc : List Node) : Str := selTexts (findElems "body".data doc)

/-- One extraction rule, src/unnamed/part_002 lines 21-25. -/
structure PreprocessHTMLRules where
  type : Str
  selector : Option Str
  exclude : Option Str

/-- Result record of `preprocessHTML`. -/
structure PreprocessResult where
  title : Str
  processedHtml : List Str

/-- `preprocessHTML(html, rules)` (src/unnamed/part_002 lines 118-170):
title extraction (read before the cleanup calls, as in the source),
cleanup, the empty-rules fallback to the body text, and otherwise the
ordered rule loop.  The cheerio selector engine is
external library behavior and is passed in as parameters: `cssSelect`
models `$(selector)` on the cleaned document, `findRemove` models
`selectedDOM.find(excSelector).remove()` returning the pruned
selection, and `innerHtml` models `selectedDOM.html()` (with `none`
for the `null` result on which the source falls back to `""`). -/
def preprocessHTML (doc : List Node) (rules : List PreprocessHTMLRules)
    (cssSelect : Str → List Node → List Node)
    (findRemove : Str → List Node → List Node)
    (innerHtml : List Node → Option Str) : PreprocessResult :=
  let title := titleOf doc
  let d := cleanupDoc doc
  if rules.length = 0 then
    { title := title, processedHtml := [bodyTextOf d] }
  else
    { title := title,
      processedHtml := rules.foldl (fun acc rule =>
        if rule.type = "css".data then
          (let selectedDOM := cssSelect (rule.selector.getD []) d
           if selectedDOM.length > 0 then
             acc ++ [(innerHtml
               (if rule.exclude.getD [] ≠ [] then
                 findRemove (rule.exclude.getD []) selectedDOM
               else selectedDOM)).getD []]
           else acc)
        else acc) [] }

/-- Claim C6: with an empty rule list, `preprocessHTML` returns exactly
one fragment, the text of the document body (after cleanup). -/
theorem claim_C6_no_rules_single_fragment (doc : List Node)
    (cssSelect : Str → List Node → List Node)
    (findRemove : Str → List Node → List Node)
    (innerHtml : List Node → Option Str) :
    (preprocessHTML doc [] cssSelect findRemove innerHtml).processedHtml =
      [bodyTextOf (cleanupDoc doc)] ∧
    (preprocessHTML doc [] cssSelect findRemove innerHtml).processedHtml.length = 1 := by
  constructor <;> simp [preprocessHTML]

/-! ## Prompt assembly (`generateMarkdown`, src/unnamed/part_002 lines
    260-266, identical in LlamaWriter.generateMarkdown,
    src/unnamed/part_001 lines 381-387) -/

/-- One conversation message. -/
structure PromptMessage where
  role : Str
  content : Str
deriving DecidableEq

/-- Content of the system message: the fixed behavioral directive with
the literal title interpolated, transcribed from the template literal
in src/unnamed/part_002 lines 261-263. -/
def llamaSystemContent (title : Str) : Str :=
  ("You are a helpful assistant that can read HTML. You will be given a few HTML snippets and you will need to generate a markdown output. \n\tGenerating simple and clear markdown in using original text only found in the HTML. Remove all links, images, and URLs. Do not repeat information.\n\tAlways start the markdown with the page title as level 1 heading. The page title is \"".data)
    ++ title ++ "\".".data

/-- The per-chunk user message, labeled with the 1-based position:
`HTML Chunk ${index + 1}: ${chunk}`. -/
def chunkMessage (i : Nat) (chunk : Str) : PromptMessage :=
  { role := "user".data
    content := "HTML Chunk ".data ++ (Nat.repr (i + 1)).data ++ ": ".data ++ chunk }

/-- The trailing user message: the generation directive with the
caller-supplied instruction appended verbatim. -/
def finalMessage (additionalPrompt : Str) : PromptMessage :=
  { role := "user".data
    content := ("Generate a markdown output, in the HTML content original language language, using all available HTML chunks. ".data)
      ++ additionalPrompt }

/-- The ordered message list `generateMarkdown` builds: system message,
one user message per chunk in order, trailing user message. -/
def generateMarkdownMessages (chunks : List Str) (title additionalPrompt : Str) :
    List PromptMessage :=
  { role := "system".data, content := llamaSystemContent title } ::
    (chunks.enum.map (fun p => chunkMessage p.1 p.2) ++ [finalMessage additionalPrompt])

/-- Claim C7: for every title, chunk list of length N and instruction,
the assembled prompt has exactly N+2 messages: the system message with
the fixed directive and the literal title first, then the i-th chunk's
user message at position i+1 labeled with its 1-based index, then the
trailing user message carrying the instruction verbatim; no chunk is
reordered, dropped, or deduplicated. -/
theorem claim_C7_prompt_assembly (chunks : List Str) (title additionalPrompt : Str) :
    (generateMarkdownMessages chunks title additionalPrompt).length = chunks.length + 2 ∧
    (generateMarkdownMessages chunks title additionalPrompt).head? =
      some { role := "system".data, content := llamaSystemContent title } ∧
    (∀ i c, chunks[i]? = some c →
      (generateMarkdownMessages chunks title additionalPrompt)[i + 1]? =
        some (chunkMessage i c)) ∧
    (generateMarkdownMessages chunks title additionalPrompt)[chunks.length + 1]? =
      some (finalMessage additionalPrompt) := by
  refine ⟨?_, rfl, ?_, ?_⟩
  · simp [generateMarkdownMessages]
  · intro i c h
    have hi : i < chunks.length := by
      by_contra hge
      rw [List.getElem?_eq_none (by omega)] at h
      exact Option.noConfusion h
    simp only [generateMarkdownMessages, List.getElem?_cons_succ]
    rw [List.getElem?_append_left (by simpa using hi)]
    simp [List.getElem?_map, List.getElem?_enum, h]
  · simp only [generateMarkdownMessages, List.getElem?_cons_succ]
    rw [List.getElem?_append_right (by simp)]
    simp

/-- Witness for claim C7 at a concrete one-chunk prompt. -/
theorem claim_C7_prompt_assembly_witness :
    (generateMarkdownMessages ["x".data] "t".data "p".data).length = 1 + 2 ∧
    (generateMarkdownMessages ["x".data] "t".data "p".data)[1]? =
      some (chunkMessage 0 "x".data) := by
  have h := claim_C7_prompt_assembly ["x".data] "t".data "p".data
  exact ⟨h.1, h.2.2.1 0 "x".data rfl⟩

/-! ## Run orchestration (`BaseWriter.run`, src/unnamed/part_000 lines
    297-326)

The external collaborators are modelled as an environment record whose
fields give each call's outcome: `Except.error` models a raised
exception (with its message), `Except.ok` a normal return.  `run`
additionally returns the ordered trace of collaborator calls it made,
so that "no step attempted after the failure point" is a statement
about the trace. -/

/-- A raised JavaScript error, carrying `e.message`. -/
structure JsError where
  message : Str
deriving DecidableEq

/-- One collaborator call made by `BaseWriter.run`. -/
inductive Effect where
  | loadMetadata
  | getHtml
  | writeMarkdown
  | storeMarkdown
  | updateMetadata
deriving DecidableEq

/-- Outcomes of the collaborators for one run.  `loadPageMetadata`
returns whether the URL was found (or raises); `getHtml` returns the
HTML or `none` for the R2 miss (or raises); `writeMarkdown` is the
model-specific generation given html and additional prompt;
`storeMarkdown` and `updatePageMetadata` are the persistence steps. -/
structure RunEnv where
  loadPageMetadata : Except JsError Bool
  getHtml : Except JsError (Option Str)
  writeMarkdown : Str → Str → Except JsError Str
  storeMarkdown : Str → Except JsError Unit
  updatePageMetadata : Except JsError Unit

/-- The structured result `{message, status, code, markdown?}`. -/
structure RunResult where
  message : Str
  status : Str
  code : Nat
  markdown : Option Str
deriving DecidableEq

/-- The `catch` clause result: `{message: e.message, status: "softfail",
code: 500}`. -/
def softfailResult (e : JsError) : RunResult :=
  { message := e.message, status := "softfail".data, code := 500, markdown := none }

/-- `BaseWriter.run(additionalPrompt)` (src/unnamed/part_000 lines
297-326), paired with the trace of collaborator calls.  JS truthiness:
`!html` is taken both for the `null` R2 miss and for an empty string;
`!markdown` is taken exactly for the empty string. -/
def BaseWriter.run (env : RunEnv) (additionalPrompt : Str) : RunResult × List Effect :=
  match env.loadPageMetadata with
  | Except.error e => (softfailResult e, [Effect.loadMetadata])
  | Except.ok false =>
      ({ message := "URL not found in D1 PageMetadata".data, status := "hardfail".data,
         code := 404, markdown := none }, [Effect.loadMetadata])
  | Except.ok true =>
      match env.getHtml with
      | Except.error e => (softfailResult e, [Effect.loadMetadata, Effect.getHtml])
      | Except.ok h =>
          if h.getD [] = [] then
            ({ message := "HTML not found from R2".data, status := "hardfail".data,
               code := 404, markdown := none }, [Effect.loadMetadata, Effect.getHtml])
          else
            match env.writeMarkdown (h.getD []) additionalPrompt with
            | Except.error e =>
                (softfailResult e,
                  [Effect.loadMetadata, Effect.getHtml, Effect.writeMarkdown])
            | Except.ok markdown =>
                if markdown = [] then
                  ({ message := "Failed to generate markdown".data,
                     status := "hardfail".data, code := 500, markdown := none },
                    [Effect.loadMetadata, Effect.getHtml, Effect.writeMarkdown])
                else
                  match env.storeMarkdown markdown with
                  | Except.error e =>
                      (softfailResult e,
                        [Effect.loadMetadata, Effect.getHtml, Effect.writeMarkdown,
                          Effect.storeMarkdown])
                  | Except.ok _ =>
                      match env.updatePageMetadata with
                      | Except.error e =>
                          (softfailResult e,
                            [Effect.loadMetadata, Effect.getHtml, Effect.writeMarkdown,
                              Effect.storeMarkdown, Effect.updateMetadata])
                      | Except.ok _ =>
                          ({ message := "Markdown saved to Knowledge Bucket".data,
                             status := "success".data, code := 200,
                             markdown := some markdown },
                            [Effect.loadMetadata, Effect.getHtml, Effect.writeMarkdown,
                              Effect.storeMarkdown, Effect.updateMetadata])

/-- Claim C8: when the metadata lookup finds no record, `run` returns
hardfail with status 404 and no markdown, and the trace shows no
content retrieval, generation, or storage call was made. -/
theorem claim_C8_metadata_absent_hardfail (env : RunEnv) (additionalPrompt : Str)
    (h : env.loadPageMetadata = Except.ok false) :
    BaseWriter.run env additionalPrompt =
      ({ message := "URL not found in D1 PageMetadata".data, status := "hardfail".data,
         code := 404, markdown := none }, [Effect.loadMetadata]) := by
  simp [BaseWriter.run, h]

/-- Witness for claim C8 at a concrete environment. -/
theorem claim_C8_metadata_absent_hardfail_witness :
    BaseWriter.run
      { loadPageMetadata := Except.ok false, getHtml := Except.ok none,
        writeMarkdown := fun _ _ => Except.ok [],
        storeMarkdown := fun _ => Except.ok (),
        updatePageMetadata := Except.ok () } [] =
      ({ message := "URL not found in D1 PageMetadata".data, status := "hardfail".data,
         code := 404, markdown := none }, [Effect.loadMetadata]) :=
  claim_C8_metadata_absent_hardfail _ [] rfl

/-- Claim C9: whichever collaborator call raises first (given the
preceding steps succeeded), `run` catches it at the top level and
returns softfail with status 500 and the raised message, and the trace
stops at the failing call: no storage write or metadata update is
attempted after the failure point. -/
theorem claim_C9_exception_softfail (env : RunEnv) (ap : Str) (e : JsError) :
    (env.loadPageMetadata = Except.error e →
      BaseWriter.run env ap = (softfailResult e, [Effect.loadMetadata])) ∧
    (env.loadPageMetadata = Except.ok true → env.getHtml = Except.error e →
      BaseWriter.run env ap =
        (softfailResult e, [Effect.loadMetadata, Effect.getHtml])) ∧
    (∀ html, env.loadPageMetadata = Except.ok true →
      env.getHtml = Except.ok (some html) → html ≠ [] →
      env.writeMarkdown html ap = Except.error e →
      BaseWriter.run env ap =
        (softfailResult e,
          [Effect.loadMetadata, Effect.getHtml, Effect.writeMarkdown])) ∧
    (∀ html md, env.loadPageMetadata = Except.ok true →
      env.getHtml = Except.ok (some html) → html ≠ [] →
      env.writeMarkdown html ap = Except.ok md → md ≠ [] →
      env.storeMarkdown md = Except.error e →
      BaseWriter.run env ap =
        (softfailResult e,
          [Effect.loadMetadata, Effect.getHtml, Effect.writeMarkdown,
            Effect.storeMarkdown])) ∧
    (∀ html md, env.loadPageMetadata = Except.ok true →
      env.getHtml = Except.ok (some html) → html ≠ [] →
      env.writeMarkdown html ap = Except.ok md → md ≠ [] →
      env.storeMarkdown md = Except.ok () → env.updatePageMetadata = Except.error e →
      BaseWriter.run env ap =
        (softfailResult e,
          [Effect.loadMetadata, Effect.getHtml, Effect.writeMarkdown,
            Effect.storeMarkdown, Effect.updateMetadata])) := by
  refine ⟨?_, ?_, ?_, ?_, ?_⟩
  · intro h1
    simp [BaseWriter.run, h1]
  · intro h1 h2
    simp [BaseWriter.run, h1, h2]
  · intro html h1 h2 h3 h4
    simp [BaseWriter.run, h1, h2, h3, h4]
  · intro html md h1 h2 h3 h4 h5 h6
    simp [BaseWriter.run, h1, h2, h3, h4, h5, h6]
  · intro html md h1 h2 h3 h4 h5 h6 h7
    simp [BaseWriter.run, h1, h2, h3, h4, h5, h6, h7]

/-- Witness for claim C9: the generation service raising (spec
Scenario D), at a concrete environment. -/
theorem claim_C9_exception_softfail_witness :
    BaseWriter.run
      { loadPageMetadata := Except.ok true, getHtml := Except.ok (some "h".data),
        writeMarkdown := fun _ _ => Except.error { message := "boom".data },
        storeMarkdown := fun _ => Except.ok (),
        updatePageMetadata := Except.ok () } [] =
      (softfailResult { message := "boom".data },
        [Effect.loadMetadata, Effect.getHtml, Effect.writeMarkdown]) :=
  (claim_C9_exception_softfail _ [] { message := "boom".data }).2.2.1
    "h".data rfl rfl (by decide) rfl

/-- A JavaScript value in the `response.response` position, restricted
to the cases relevant to the coercion claim. -/
inductive JSValue where
  | null
  | undefined
  | str (s : Str)
deriving DecidableEq

/-- `String(response.response)` (src/unnamed/part_001 line 394):
`String(null)` is the literal `"null"`, `String(undefined)` the
literal `"undefined"`, and a string coerces to itself. -/
def jsStringCoerce : JSValue → Str
  | JSValue.null => "null".data
  | JSValue.undefined => "undefined".data
  | JSValue.str s => s

/-- Claim C10: the coerced markdown is empty (falsy) only when the
response field is exactly the empty string; for a `null` or
`undefined` response field the coercion yields the truthy literal
`"null"` or `"undefined"`, so `run` takes the success path, persists
that literal (the store call appears in the trace) and reports it as
the markdown. -/
theorem claim_C10_string_coercion_success (v : JSValue) (env : RunEnv)
    (ap html : Str) :
    (jsStringCoerce v = [] ↔ v = JSValue.str []) ∧
    (v = JSValue.null → jsStringCoerce v = "null".data) ∧
    (v = JSValue.undefined → jsStringCoerce v = "undefined".data) ∧
    ((v = JSValue.null ∨ v = JSValue.undefined) →
      env.loadPageMetadata = Except.ok true →
      env.getHtml = Except.ok (some html) → html ≠ [] →
      env.writeMarkdown html ap = Except.ok (jsStringCoerce v) →
      env.storeMarkdown (jsStringCoerce v) = Except.ok () →
      env.updatePageMetadata = Except.ok () →
      BaseWriter.run env ap =
        ({ message := "Markdown saved to Knowledge Bucket".data,
           status := "success".data, code := 200,
           markdown := some (jsStringCoerce v) },
          [Effect.loadMetadata, Effect.getHtml, Effect.writeMarkdown,
            Effect.storeMarkdown, Effect.updateMetadata])) := by
  refine ⟨?_, ?_, ?_, ?_⟩
  · cases v with
    | null => simp [jsStringCoerce]
    | undefined => simp [jsStringCoerce]
    | str s => simp [jsStringCoerce]
  · intro hv; rw [hv]; rfl
  · intro hv; rw [hv]; rfl
  · intro hv h1 h2 h3 h4 h5 h6
    have hne : jsStringCoerce v ≠ [] := by
      rcases hv with hv | hv <;> rw [hv] <;> simp [jsStringCoerce]
    simp [BaseWriter.run, h1, h2, h3, h4, h5, h6, hne]

/-- Witness for claim C10: a `null` response field at a concrete
environment; the persisted markdown is the literal `"null"`. -/
theorem claim_C10_string_coercion_success_witness :
    BaseWriter.run
      { loadPageMetadata := Except.ok true, getHtml := Except.ok (some "h".data),
        writeMarkdown := fun _ _ => Except.ok (jsStringCoerce JSValue.null),
        storeMarkdown := fun _ => Except.ok (),
        updatePageMetadata := Except.ok () } [] =
      ({ message := "Markdown saved to Knowledge Bucket".data,
         status := "success".data, code := 200,
         markdown := some (jsStringCoerce JSValue.null) },
        [Effect.loadMetadata, Effect.getHtml, Effect.writeMarkdown,
          Effect.storeMarkdown, Effect.updateMetadata]) :=
  (claim_C10_string_coercion_success JSValue.null _ [] "h".data).2.2.2
    (Or.inl rfl) rfl rfl (by decide) rfl rfl rfl
